import Mathlib

/-!
Verification of `tetrachoric_corr` from `src/imgreliability/tetrachoric_correlation.py`.

The Python function computes, for two binary vectors `img1`, `img2`:
  A = #(img1=0 ∧ img2=0), B = #(img1=0 ∧ img2=1),
  C = #(img1=1 ∧ img2=0), D = #(img1=1 ∧ img2=1),
  AD = A*D  (exact integer product)
  return cos(pi/(1+sqrt(AD/B/C)))
where the divisions `AD/B` and `(AD/B)/C` are numpy float64 true divisions, so
division by zero follows IEEE-754 semantics: `0/0 = NaN`, `x/0 = ±inf` for
`x ≠ 0`, and NaN propagates through `sqrt`, `+`, `/` and `cos`; `cos(±inf)` is
NaN, `sqrt(inf) = inf`, `x/inf = 0` for finite `x`.

We embed the float computation as exact real arithmetic extended with the
special values `inf`, `neginf` and `nan`. The idealization erases binary64
rounding, so it is faithful exactly for the structural outcomes — NaN,
exactly ±1 (the degenerate branches are rounding-free: `0/0`, `x/0`, the
ratio-0 path `cos(pi/1)`, and the inf path `cos(0)`), and membership of a
cosine value in [-1, 1] — and those are what the claims below are about.
Properties that hinge on the rounding of intermediate divisions, such as
bit-for-bit equality of the two argument orders, are NOT captured: the final
section exhibits the order sensitivity of the binary64 ratio with exact
integer arithmetic. The three `assert` statements at the top of the function
are modelled by an `Except` error value.
-/

namespace PyReliMRI

/-- IEEE-style extended value: a finite real, +infinity, -infinity, or NaN. -/
inductive EFloat : Type where
  | val : ℝ → EFloat
  | inf : EFloat
  | neginf : EFloat
  | nan : EFloat

/-- IEEE division restricted to the cases arising here (no signed zero):
NaN propagates, `finite/±inf = 0`, `±inf/±inf = NaN`, `x/0` is NaN for `x = 0`
and a signed infinity otherwise, `±inf/finite` keeps the sign. -/
noncomputable def efDiv : EFloat → EFloat → EFloat
  | .nan, _ => .nan
  | _, .nan => .nan
  | .val _, .inf => .val 0
  | .val _, .neginf => .val 0
  | .inf, .inf => .nan
  | .inf, .neginf => .nan
  | .neginf, .inf => .nan
  | .neginf, .neginf => .nan
  | .inf, .val y => if 0 ≤ y then .inf else .neginf
  | .neginf, .val y => if 0 ≤ y then .neginf else .inf
  | .val x, .val y =>
      if y = 0 then
        if x = 0 then .nan else if 0 < x then .inf else .neginf
      else .val (x / y)

/-- IEEE square root: NaN on NaN and on negative arguments, `sqrt(inf) = inf`. -/
noncomputable def efSqrt : EFloat → EFloat
  | .nan => .nan
  | .inf => .inf
  | .neginf => .nan
  | .val x => if x < 0 then .nan else .val (Real.sqrt x)

/-- IEEE addition: NaN propagates, `inf + neginf = NaN`, infinities absorb. -/
noncomputable def efAdd : EFloat → EFloat → EFloat
  | .nan, _ => .nan
  | _, .nan => .nan
  | .inf, .neginf => .nan
  | .neginf, .inf => .nan
  | .inf, _ => .inf
  | _, .inf => .inf
  | .neginf, _ => .neginf
  | _, .neginf => .neginf
  | .val x, .val y => .val (x + y)

/-- IEEE cosine: finite on finite arguments, NaN on ±inf and NaN. -/
noncomputable def efCos : EFloat → EFloat
  | .val x => .val (Real.cos x)
  | _ => .nan

/-- Count of positions where the first vector equals `x` and the second equals
`y`; this embeds one `sum(logical_and(img1 == x, img2 == y))` line. -/
def cnt (x y : ℕ) (v1 v2 : List ℕ) : ℕ :=
  (v1.zip v2).countP fun p => p.1 == x && p.2 == y

/-- `A = sum(logical_and(img1 == 0, img2 == 0))`. -/
def countA (v1 v2 : List ℕ) : ℕ := cnt 0 0 v1 v2

/-- `B = sum(logical_and(img1 == 0, img2 == 1))`. -/
def countB (v1 v2 : List ℕ) : ℕ := cnt 0 1 v1 v2

/-- `C = sum(logical_and(img1 == 1, img2 == 0))`. -/
def countC (v1 v2 : List ℕ) : ℕ := cnt 1 0 v1 v2

/-- `D = sum(logical_and(img1 == 1, img2 == 1))`. -/
def countD (v1 v2 : List ℕ) : ℕ := cnt 1 1 v1 v2

/-- The float ratio `AD/B/C` exactly as the code computes it: two successive
float divisions of the integer counts. -/
noncomputable def natRatio (ad b c : ℕ) : EFloat :=
  efDiv (efDiv (.val (ad : ℝ)) (.val (b : ℝ))) (.val (c : ℝ))

/-- The return expression `cos(pi/(1+sqrt(AD/B/C)))` with `AD = A*D`. -/
noncomputable def tetraFormula (a b c d : ℕ) : EFloat :=
  efCos (efDiv (.val Real.pi)
    (efAdd (.val 1) (efSqrt (natRatio (a * d) b c))))

/-- The error raised by the three `assert` statements; the spec calls it
`InvalidInputError`. -/
inductive TetraError : Type where
  | invalidInput : TetraError
deriving DecidableEq

/-- `tetrachoric_corr(img1, img2)`: the three length asserts in source order,
then the four contingency counts and the closed-form return value. -/
noncomputable def tetrachoric_corr (img1 img2 : List ℕ) : Except TetraError EFloat :=
  if img1.length > 0 then
    if img2.length > 0 then
      if img1.length = img2.length then
        .ok (tetraFormula (countA img1 img2) (countB img1 img2)
              (countC img1 img2) (countD img1 img2))
      else .error .invalidInput
    else .error .invalidInput
  else .error .invalidInput

/-- A vector is binary when every element is 0 or 1. -/
def binary (v : List ℕ) : Prop := ∀ x ∈ v, x = 0 ∨ x = 1

instance (v : List ℕ) : Decidable (binary v) := by
  unfold binary; infer_instance

/-! ### Classification of the ratio `AD/B/C` -/

lemma natRatio_nan (ad b c : ℕ) (had : ad = 0) (hbc : b = 0 ∨ c = 0) :
    natRatio ad b c = .nan := by
  subst had
  rcases hbc with hb | hc
  · subst hb
    simp [natRatio, efDiv]
  · subst hc
    rcases eq_or_ne b 0 with hb | hb
    · subst hb; simp [natRatio, efDiv]
    · have hb' : ((b : ℝ)) ≠ 0 := Nat.cast_ne_zero.mpr hb
      simp [natRatio, efDiv, hb']

lemma natRatio_inf (ad b c : ℕ) (had : ad ≠ 0) (hbc : b = 0 ∨ c = 0) :
    natRatio ad b c = .inf := by
  have had' : ((ad : ℝ)) ≠ 0 := Nat.cast_ne_zero.mpr had
  have hadpos : (0 : ℝ) < (ad : ℝ) := by
    exact_mod_cast Nat.pos_of_ne_zero had
  rcases hbc with hb | hc
  · subst hb
    simp [natRatio, efDiv, had', hadpos, Nat.cast_nonneg]
  · rcases eq_or_ne b 0 with hb | hb
    · subst hb; subst hc
      simp [natRatio, efDiv, had', hadpos, Nat.cast_nonneg]
    · have hb' : ((b : ℝ)) ≠ 0 := Nat.cast_ne_zero.mpr hb
      have hbpos : (0 : ℝ) < (b : ℝ) := by
        exact_mod_cast Nat.pos_of_ne_zero hb
      have hq : (0 : ℝ) < (ad : ℝ) / (b : ℝ) := div_pos hadpos hbpos
      subst hc
      simp [natRatio, efDiv, hb', hq.ne', hq]

lemma natRatio_val (ad b c : ℕ) (hb : b ≠ 0) (hc : c ≠ 0) :
    natRatio ad b c = .val ((ad : ℝ) / (b : ℝ) / (c : ℝ)) := by
  have hb' : ((b : ℝ)) ≠ 0 := Nat.cast_ne_zero.mpr hb
  have hc' : ((c : ℝ)) ≠ 0 := Nat.cast_ne_zero.mpr hc
  simp [natRatio, efDiv, hb', hc']

/-! ### Classification of the whole formula -/

lemma tetraFormula_nan (a b c d : ℕ) (had : a * d = 0) (hbc : b = 0 ∨ c = 0) :
    tetraFormula a b c d = .nan := by
  rw [tetraFormula, natRatio_nan _ _ _ had hbc]
  rfl

lemma tetraFormula_one (a b c d : ℕ) (had : a * d ≠ 0) (hbc : b = 0 ∨ c = 0) :
    tetraFormula a b c d = .val 1 := by
  rw [tetraFormula, natRatio_inf _ _ _ had hbc]
  show efCos (efDiv (.val Real.pi) (efAdd (.val 1) EFloat.inf)) = .val 1
  show efCos (.val 0) = .val 1
  simp [efCos]

lemma tetraFormula_val (a b c d : ℕ) (hb : b ≠ 0) (hc : c ≠ 0) :
    tetraFormula a b c d =
      .val (Real.cos (Real.pi /
        (1 + Real.sqrt (((a * d : ℕ) : ℝ) / (b : ℝ) / (c : ℝ))))) := by
  rw [tetraFormula, natRatio_val _ _ _ hb hc]
  set r : ℝ := ((a * d : ℕ) : ℝ) / (b : ℝ) / (c : ℝ) with hrdef
  have hr : (0 : ℝ) ≤ r := by
    rw [hrdef]
    exact div_nonneg (div_nonneg (Nat.cast_nonneg _) (Nat.cast_nonneg _)) (Nat.cast_nonneg _)
  have hden : (1 : ℝ) + Real.sqrt r ≠ 0 := by positivity
  rw [show efSqrt (.val r) = .val (Real.sqrt r) by
      simp only [efSqrt, if_neg (not_lt.mpr hr)]]
  show efCos (efDiv (.val Real.pi) (.val (1 + Real.sqrt r))) = _
  rw [show efDiv (.val Real.pi) (.val (1 + Real.sqrt r)) =
        .val (Real.pi / (1 + Real.sqrt r)) by
      simp only [efDiv, if_neg hden]]
  rfl

lemma tetraFormula_nan_iff (a b c d : ℕ) :
    tetraFormula a b c d = .nan ↔ (a * d = 0 ∧ (b = 0 ∨ c = 0)) := by
  constructor
  · intro h
    by_contra hcon
    push_neg at hcon
    rcases eq_or_ne b 0 with hb | hb
    · rcases eq_or_ne (a * d) 0 with had | had
      · exact (hcon had).1 hb
      · rw [tetraFormula_one a b c d had (Or.inl hb)] at h
        exact EFloat.noConfusion h
    · rcases eq_or_ne c 0 with hc | hc
      · rcases eq_or_ne (a * d) 0 with had | had
        · exact (hcon had).2 hc
        · rw [tetraFormula_one a b c d had (Or.inr hc)] at h
          exact EFloat.noConfusion h
      · rw [tetraFormula_val a b c d hb hc] at h
        exact EFloat.noConfusion h
  · rintro ⟨had, hbc⟩
    exact tetraFormula_nan a b c d had hbc

lemma tetrachoric_corr_ok (v1 v2 : List ℕ) (h1 : 0 < v1.length)
    (hlen : v1.length = v2.length) :
    tetrachoric_corr v1 v2 =
      .ok (tetraFormula (countA v1 v2) (countB v1 v2) (countC v1 v2) (countD v1 v2)) := by
  have h2 : 0 < v2.length := hlen ▸ h1
  simp [tetrachoric_corr, h1, h2, hlen]

/-! ### Counting lemmas -/

lemma cnt_nil_left (x y : ℕ) (v2 : List ℕ) : cnt x y [] v2 = 0 := rfl

lemma cnt_cons (x y a b : ℕ) (t s : List ℕ) :
    cnt x y (a :: t) (b :: s) = cnt x y t s + if a = x ∧ b = y then 1 else 0 := by
  unfold cnt
  rw [List.zip_cons_cons, List.countP_cons]
  congr 1
  by_cases h1 : a = x <;> by_cases h2 : b = y <;> simp [h1, h2]

lemma counts_partition (v1 v2 : List ℕ) (hlen : v1.length = v2.length)
    (h1 : binary v1) (h2 : binary v2) :
    countA v1 v2 + countB v1 v2 + countC v1 v2 + countD v1 v2 = v1.length := by
  induction v1 generalizing v2 with
  | nil => simp [countA, countB, countC, countD, cnt]
  | cons a t ih =>
    cases v2 with
    | nil => simp at hlen
    | cons b s =>
      have hlen' : t.length = s.length := by simpa using hlen
      have h1t : binary t := fun z hz => h1 z (List.mem_cons_of_mem _ hz)
      have h2s : binary s := fun z hz => h2 z (List.mem_cons_of_mem _ hz)
      have ha := h1 a (List.mem_cons_self _ _)
      have hb := h2 b (List.mem_cons_self _ _)
      have hih := ih s hlen' h1t h2s
      simp only [countA, countB, countC, countD] at hih ⊢
      rw [cnt_cons, cnt_cons, cnt_cons, cnt_cons]
      rcases ha with ha | ha <;> rcases hb with hb | hb <;>
        subst ha <;> subst hb <;> simp <;> omega

lemma cnt_compl_00 (v1 : List ℕ) : cnt 0 0 v1 (v1.map fun a => 1 - a) = 0 := by
  induction v1 with
  | nil => rfl
  | cons a t ih =>
    rw [List.map_cons, cnt_cons, ih]
    by_cases ha : a = 0 <;> simp [ha]

lemma cnt_compl_11 (v1 : List ℕ) : cnt 1 1 v1 (v1.map fun a => 1 - a) = 0 := by
  induction v1 with
  | nil => rfl
  | cons a t ih =>
    rw [List.map_cons, cnt_cons, ih]
    by_cases ha : a = 1 <;> simp [ha]

lemma cnt_compl_01 (v1 : List ℕ) :
    cnt 0 1 v1 (v1.map fun a => 1 - a) = v1.countP (· == 0) := by
  induction v1 with
  | nil => rfl
  | cons a t ih =>
    rw [List.map_cons, cnt_cons, ih, List.countP_cons]
    by_cases ha : a = 0 <;> simp [ha]

lemma cnt_compl_10 (v1 : List ℕ) :
    cnt 1 0 v1 (v1.map fun a => 1 - a) = v1.countP (· == 1) := by
  induction v1 with
  | nil => rfl
  | cons a t ih =>
    rw [List.map_cons, cnt_cons, ih, List.countP_cons]
    by_cases ha : a = 1 <;> simp [ha]

lemma cnt_swap (x y : ℕ) (v1 v2 : List ℕ) : cnt x y v1 v2 = cnt y x v2 v1 := by
  induction v1 generalizing v2 with
  | nil => cases v2 <;> rfl
  | cons a t ih =>
    cases v2 with
    | nil => rfl
    | cons b s =>
      rw [cnt_cons, cnt_cons, ih]
      congr 1
      simp [and_comm]

lemma tetraFormula_swap (a b c d : ℕ) : tetraFormula a b c d = tetraFormula a c b d := by
  rcases eq_or_ne b 0 with hb | hb
  · rcases eq_or_ne (a * d) 0 with had | had
    · rw [tetraFormula_nan a b c d had (Or.inl hb),
        tetraFormula_nan a c b d had (Or.inr hb)]
    · rw [tetraFormula_one a b c d had (Or.inl hb),
        tetraFormula_one a c b d had (Or.inr hb)]
  · rcases eq_or_ne c 0 with hc | hc
    · rcases eq_or_ne (a * d) 0 with had | had
      · rw [tetraFormula_nan a b c d had (Or.inr hc),
          tetraFormula_nan a c b d had (Or.inl hc)]
      · rw [tetraFormula_one a b c d had (Or.inr hc),
          tetraFormula_one a c b d had (Or.inl hc)]
    · rw [tetraFormula_val a b c d hb hc, tetraFormula_val a c b d hc hb,
        div_right_comm]

/-! ### Claim theorems -/

/-- C1: the claim says `tetrachoric_corr(v, v) = 1.0` for every binary vector,
including the all-zeros and all-ones cases. For an all-zeros vector the code
computes `A = n`, `B = C = D = 0`, so `AD = 0` and `AD/B = 0/0 = NaN`, and the
function returns NaN, contradicting both the claim and the repository's own
property test (`tc == 1.0` whenever the rows are equal). This theorem
evaluates the embedded code at the failing input `v1 = v2 = [0]`. -/
theorem C1_identical_all_zeros_returns_nan :
    tetrachoric_corr [0] [0] = .ok .nan := by
  rw [tetrachoric_corr_ok [0] [0] (by norm_num) rfl]
  rw [show countA [0] [0] = 1 from rfl, show countB [0] [0] = 0 from rfl,
    show countC [0] [0] = 0 from rfl, show countD [0] [0] = 0 from rfl]
  rw [tetraFormula_nan 1 0 0 0 (by norm_num) (Or.inl rfl)]

/-- C2 counterexample: `v1 = [0,1,1]`, `v2 = [0,0,1]` gives `B = 0`, `C = 1`,
the vectors are neither identical nor complementary, yet the code returns the
float `1.0`, not NaN: `A = D = 1`, so `AD/B = 1/0 = +inf`, `sqrt(inf) = inf`,
`pi/(1+inf) = 0`, `cos(0) = 1`. -/
theorem C2_counterexample :
    countB [0, 1, 1] [0, 0, 1] = 0 ∧
    ([0, 1, 1] : List ℕ) ≠ [0, 0, 1] ∧
    ([0, 0, 1] : List ℕ) ≠ ([0, 1, 1] : List ℕ).map (fun a => 1 - a) ∧
    tetrachoric_corr [0, 1, 1] [0, 0, 1] = .ok (.val 1) ∧
    EFloat.val 1 ≠ EFloat.nan := by
  refine ⟨by decide, by decide, by decide, ?_, fun h => EFloat.noConfusion h⟩
  rw [tetrachoric_corr_ok [0, 1, 1] [0, 0, 1] (by norm_num) rfl]
  rw [show countA [0, 1, 1] [0, 0, 1] = 1 from rfl,
    show countB [0, 1, 1] [0, 0, 1] = 0 from rfl,
    show countC [0, 1, 1] [0, 0, 1] = 1 from rfl,
    show countD [0, 1, 1] [0, 0, 1] = 1 from rfl]
  rw [tetraFormula_one 1 0 1 1 (by norm_num) (Or.inl rfl)]

/-- C2 (amended): for equal-length non-empty binary vectors with `B = 0` or
`C = 0` AND `A*D = 0`, not identical and not complementary, the function
returns NaN (it does not raise, and NaN is distinct from 1, -1 and 0 by
construction). The amendment adds the condition `A*D = 0`, which the
counterexample forces: with `A*D > 0` the zero division produces +inf and the
result is `1.0`. -/
theorem C2_degenerate_discordant_nan (v1 v2 : List ℕ)
    (hlen : v1.length = v2.length) (hpos : 0 < v1.length)
    (h1 : binary v1) (h2 : binary v2)
    (hbc : countB v1 v2 = 0 ∨ countC v1 v2 = 0)
    (had : countA v1 v2 * countD v1 v2 = 0)
    (hne : v1 ≠ v2) (hnc : v2 ≠ v1.map fun a => 1 - a) :
    tetrachoric_corr v1 v2 = .ok .nan := by
  rw [tetrachoric_corr_ok v1 v2 hpos hlen]
  rw [tetraFormula_nan _ _ _ _ had hbc]

/-- C2 witness: the amended statement instantiated at `v1 = [0,0,1]`,
`v2 = [0,0,0]` (`B = 0`, `D = 0`, not identical, not complementary). -/
theorem C2_degenerate_discordant_nan_witness :
    tetrachoric_corr [0, 0, 1] [0, 0, 0] = .ok .nan :=
  C2_degenerate_discordant_nan [0, 0, 1] [0, 0, 0] rfl (by norm_num)
    (by decide) (by decide) (Or.inl (by decide)) (by decide)
    (by decide) (by decide)

/-- C3: the function returns the `InvalidInputError` value exactly when one of
the inputs is empty or the lengths differ; on every input with equal positive
lengths it returns an `EFloat` value (a float, possibly NaN) and never
raises. -/
theorem C3_invalid_input_iff (v1 v2 : List ℕ) :
    (tetrachoric_corr v1 v2 = .error .invalidInput ↔
      v1.length = 0 ∨ v2.length = 0 ∨ v1.length ≠ v2.length) ∧
    (v1.length ≠ 0 → v1.length = v2.length →
      ∃ e, tetrachoric_corr v1 v2 = .ok e) := by
  constructor
  · constructor
    · intro h
      by_contra hcon
      push_neg at hcon
      obtain ⟨h1, h2, h3⟩ := hcon
      rw [tetrachoric_corr_ok v1 v2 (Nat.pos_of_ne_zero h1) h3] at h
      exact Except.noConfusion h
    · intro h
      rcases h with h | h | h
      · simp [tetrachoric_corr, h]
      · by_cases hl : 0 < v1.length <;> simp [tetrachoric_corr, h, hl]
      · by_cases hl : 0 < v1.length <;> by_cases hr : 0 < v2.length <;>
          simp [tetrachoric_corr, h, hl, hr]
  · intro h1 h3
    exact ⟨_, tetrachoric_corr_ok v1 v2 (Nat.pos_of_ne_zero h1) h3⟩

/-- C3 witness: a mismatched-length pair yields the error, and a valid pair
yields a normal return value. -/
theorem C3_invalid_input_iff_witness :
    tetrachoric_corr [0] ([] : List ℕ) = .error .invalidInput ∧
    ∃ e, tetrachoric_corr [0, 1] [1, 0] = .ok e :=
  ⟨(C3_invalid_input_iff [0] []).1.mpr (Or.inr (Or.inl rfl)),
   (C3_invalid_input_iff [0, 1] [1, 0]).2 (by norm_num) rfl⟩

/-- C4 counterexample: `v1 = [1]`, `v2 = [0]` are elementwise complementary,
yet the code returns NaN, not -1.0: here `A = B = D = 0`, `C = 1`, so
`AD/B = 0/0 = NaN`. -/
theorem C4_counterexample :
    ([0] : List ℕ) = ([1] : List ℕ).map (fun a => 1 - a) ∧
    tetrachoric_corr [1] [0] = .ok .nan ∧
    EFloat.nan ≠ EFloat.val (-1) := by
  refine ⟨by decide, ?_, fun h => EFloat.noConfusion h⟩
  rw [tetrachoric_corr_ok [1] [0] (by norm_num) rfl]
  rw [show countA [1] [0] = 0 from rfl, show countB [1] [0] = 0 from rfl,
    show countC [1] [0] = 1 from rfl, show countD [1] [0] = 0 from rfl]
  rw [tetraFormula_nan 0 0 1 0 (by norm_num) (Or.inl rfl)]

/-- C4 (amended): for a binary vector `v1` containing both a 0 and a 1, and
`v2` its elementwise complement, the function returns exactly -1.0. The
amendment excludes constant `v1` (all zeros or all ones), which the
counterexample forces: there `B = 0` or `C = 0` together with `A*D = 0`
produces NaN instead. -/
theorem C4_complement_minus_one (v1 v2 : List ℕ) (hbin : binary v1)
    (h0 : 0 ∈ v1) (h1 : 1 ∈ v1)
    (hcomp : v2 = v1.map fun a => 1 - a) :
    tetrachoric_corr v1 v2 = .ok (.val (-1)) := by
  subst hcomp
  have hpos : 0 < v1.length := List.length_pos.mpr (by
    rintro rfl
    simp at h0)
  have hlen : v1.length = (v1.map fun a => 1 - a).length := by simp
  rw [tetrachoric_corr_ok _ _ hpos hlen]
  have hB : countB v1 (v1.map fun a => 1 - a) ≠ 0 := by
    rw [countB, cnt_compl_01]
    have : 0 < v1.countP (· == 0) := List.countP_pos_iff.mpr ⟨0, h0, by decide⟩
    omega
  have hC : countC v1 (v1.map fun a => 1 - a) ≠ 0 := by
    rw [countC, cnt_compl_10]
    have : 0 < v1.countP (· == 1) := List.countP_pos_iff.mpr ⟨1, h1, by decide⟩
    omega
  rw [tetraFormula_val _ _ _ _ hB hC]
  rw [show countA v1 (v1.map fun a => 1 - a) = 0 from cnt_compl_00 v1]
  norm_num [Real.cos_pi]

/-- C4 witness: the amended statement at `v1 = [0,1]`, `v2 = [1,0]`. -/
theorem C4_complement_minus_one_witness :
    tetrachoric_corr [0, 1] [1, 0] = .ok (.val (-1)) :=
  C4_complement_minus_one [0, 1] [1, 0] (by decide) (by decide) (by decide)
    (by decide)

/-- C5: for equal-length binary vectors with `B > 0` and `C > 0` the function
returns a finite (non-NaN) real value in the closed interval [-1, 1]. -/
theorem C5_nondegenerate_in_unit_interval (v1 v2 : List ℕ)
    (hlen : v1.length = v2.length) (h1 : binary v1) (h2 : binary v2)
    (hB : countB v1 v2 ≠ 0) (hC : countC v1 v2 ≠ 0) :
    ∃ x : ℝ, tetrachoric_corr v1 v2 = .ok (.val x) ∧ -1 ≤ x ∧ x ≤ 1 := by
  have hpos : 0 < v1.length := by
    rcases Nat.eq_zero_or_pos v1.length with h | h
    · exact absurd (by simp [List.length_eq_zero.mp h, countB, cnt]) hB
    · exact h
  refine ⟨Real.cos (Real.pi /
      (1 + Real.sqrt (((countA v1 v2 * countD v1 v2 : ℕ) : ℝ) /
        (countB v1 v2 : ℝ) / (countC v1 v2 : ℝ)))),
    ?_, Real.neg_one_le_cos _, Real.cos_le_one _⟩
  rw [tetrachoric_corr_ok v1 v2 hpos hlen, tetraFormula_val _ _ _ _ hB hC]

/-- C5 witness: the statement at `v1 = [0,0,1,1]`, `v2 = [0,1,0,1]`. -/
theorem C5_nondegenerate_in_unit_interval_witness :
    ∃ x : ℝ, tetrachoric_corr [0, 0, 1, 1] [0, 1, 0, 1] = .ok (.val x) ∧
      -1 ≤ x ∧ x ≤ 1 :=
  C5_nondegenerate_in_unit_interval [0, 0, 1, 1] [0, 1, 0, 1] rfl
    (by decide) (by decide) (by decide) (by decide)

/-- C6: for equal-length binary vectors with `A = 0` or `D = 0` but `B > 0`
and `C > 0`, the ratio is 0, so the function returns
`cos(pi) = -1.0` exactly — a defined value, not the NaN case. -/
theorem C6_zero_cross_product_minus_one (v1 v2 : List ℕ)
    (hlen : v1.length = v2.length) (h1 : binary v1) (h2 : binary v2)
    (hAD : countA v1 v2 = 0 ∨ countD v1 v2 = 0)
    (hB : countB v1 v2 ≠ 0) (hC : countC v1 v2 ≠ 0) :
    tetrachoric_corr v1 v2 = .ok (.val (-1)) ∧
    EFloat.val (-1) ≠ EFloat.nan := by
  have hpos : 0 < v1.length := by
    rcases Nat.eq_zero_or_pos v1.length with h | h
    · exact absurd (by simp [List.length_eq_zero.mp h, countB, cnt]) hB
    · exact h
  refine ⟨?_, fun h => EFloat.noConfusion h⟩
  rw [tetrachoric_corr_ok v1 v2 hpos hlen, tetraFormula_val _ _ _ _ hB hC]
  have had : countA v1 v2 * countD v1 v2 = 0 := by
    rcases hAD with h | h <;> simp [h]
  rw [had]
  norm_num [Real.cos_pi]

/-- C6 witness: the statement at `v1 = [0,1,1]`, `v2 = [1,0,1]`
(`A = 0`, `B = C = D = 1`). -/
theorem C6_zero_cross_product_minus_one_witness :
    tetrachoric_corr [0, 1, 1] [1, 0, 1] = .ok (.val (-1)) ∧
    EFloat.val (-1) ≠ EFloat.nan :=
  C6_zero_cross_product_minus_one [0, 1, 1] [1, 0, 1] rfl (by decide)
    (by decide) (Or.inl (by decide)) (by decide) (by decide)

/-- C7: for equal-length binary vectors with `B > 0` and `C > 0`, the return
value is exactly `cos(pi / (1 + sqrt((A*D) / (B*C))))`. -/
theorem C7_closed_form (v1 v2 : List ℕ)
    (hlen : v1.length = v2.length) (h1 : binary v1) (h2 : binary v2)
    (hB : countB v1 v2 ≠ 0) (hC : countC v1 v2 ≠ 0) :
    tetrachoric_corr v1 v2 = .ok (.val (Real.cos (Real.pi /
      (1 + Real.sqrt (((countA v1 v2 * countD v1 v2 : ℕ) : ℝ) /
        ((countB v1 v2 : ℝ) * (countC v1 v2 : ℝ))))))) := by
  have hpos : 0 < v1.length := by
    rcases Nat.eq_zero_or_pos v1.length with h | h
    · exact absurd (by simp [List.length_eq_zero.mp h, countB, cnt]) hB
    · exact h
  rw [tetrachoric_corr_ok v1 v2 hpos hlen, tetraFormula_val _ _ _ _ hB hC,
    div_div]

/-- C7 witness: the statement at `v1 = [0,1,0,1]`, `v2 = [0,0,1,1]`. -/
theorem C7_closed_form_witness :
    tetrachoric_corr [0, 1, 0, 1] [0, 0, 1, 1] =
      .ok (.val (Real.cos (Real.pi /
        (1 + Real.sqrt (((countA [0, 1, 0, 1] [0, 0, 1, 1] *
            countD [0, 1, 0, 1] [0, 0, 1, 1] : ℕ) : ℝ) /
          ((countB [0, 1, 0, 1] [0, 0, 1, 1] : ℝ) *
            (countC [0, 1, 0, 1] [0, 0, 1, 1] : ℝ))))))) :=
  C7_closed_form [0, 1, 0, 1] [0, 0, 1, 1] rfl (by decide) (by decide)
    (by decide) (by decide)

/-- C8: for equal-length binary vectors of length n, the four contingency
counts (which are natural numbers, hence non-negative) partition the n
positions: `A + B + C + D = n`. -/
theorem C8_counts_partition (v1 v2 : List ℕ)
    (hlen : v1.length = v2.length) (h1 : binary v1) (h2 : binary v2) :
    countA v1 v2 + countB v1 v2 + countC v1 v2 + countD v1 v2 = v1.length :=
  counts_partition v1 v2 hlen h1 h2

/-- C8 witness: the statement at `v1 = [0,1]`, `v2 = [0,0]`. -/
theorem C8_counts_partition_witness :
    countA [0, 1] [0, 0] + countB [0, 1] [0, 0] + countC [0, 1] [0, 0] +
      countD [0, 1] [0, 0] = ([0, 1] : List ℕ).length :=
  C8_counts_partition [0, 1] [0, 0] rfl (by decide) (by decide)

/-- C9: for equal-length non-empty binary vectors the function returns NaN if
and only if `A*D = 0` and (`B = 0` or `C = 0`); and whenever `B = 0` or
`C = 0` but `A > 0` and `D > 0`, the division of the positive `A*D` by zero
gives +inf and the function returns exactly 1.0. -/
theorem C9_nan_iff (v1 v2 : List ℕ) (hlen : v1.length = v2.length)
    (hpos : 0 < v1.length) (h1 : binary v1) (h2 : binary v2) :
    (tetrachoric_corr v1 v2 = .ok .nan ↔
      countA v1 v2 * countD v1 v2 = 0 ∧
        (countB v1 v2 = 0 ∨ countC v1 v2 = 0)) ∧
    (countA v1 v2 ≠ 0 → countD v1 v2 ≠ 0 →
      (countB v1 v2 = 0 ∨ countC v1 v2 = 0) →
      tetrachoric_corr v1 v2 = .ok (.val 1)) := by
  rw [tetrachoric_corr_ok v1 v2 hpos hlen]
  constructor
  · constructor
    · intro h
      exact (tetraFormula_nan_iff _ _ _ _).mp (Except.ok.inj h)
    · intro h
      rw [(tetraFormula_nan_iff _ _ _ _).mpr h]
  · intro hA hD hbc
    rw [tetraFormula_one _ _ _ _ (Nat.mul_ne_zero hA hD) hbc]

/-- C9 witness: at `v1 = [1,1,0]`, `v2 = [1,0,0]` (`B = 0`, `A = D = 1`) the
second conjunct yields the value 1.0, and the iff confirms this is not the
NaN case. -/
theorem C9_nan_iff_witness :
    tetrachoric_corr [1, 1, 0] [1, 0, 0] = .ok (.val 1) :=
  (C9_nan_iff [1, 1, 0] [1, 0, 0] rfl (by norm_num) (by decide)
    (by decide)).2 (by decide) (by decide) (Or.inl (by decide))

/-- In the exact-real idealization the function is symmetric in its two
arguments: swapping the inputs keeps A and D, exchanges B with C, and for
exact division `AD/B/C = AD/C/B` in every branch (value, inf and NaN alike);
the error conditions are symmetric too. This is a fact about the idealized
model only: the float64 program rounds `(AD/B)/C` and `(AD/C)/B` differently
(see `float64_ratio_order_sensitive` below), so the program's two evaluation
orders agree only up to rounding, not bit for bit. -/
theorem tetrachoric_corr_symm_ideal (v1 v2 : List ℕ) :
    tetrachoric_corr v1 v2 = tetrachoric_corr v2 v1 := by
  by_cases h3 : v1.length = v2.length
  · by_cases hl : 0 < v1.length
    · have hr : 0 < v2.length := h3 ▸ hl
      rw [tetrachoric_corr_ok v1 v2 hl h3, tetrachoric_corr_ok v2 v1 hr h3.symm]
      rw [show countA v2 v1 = countA v1 v2 from cnt_swap 0 0 v2 v1,
        show countB v2 v1 = countC v1 v2 from cnt_swap 0 1 v2 v1,
        show countC v2 v1 = countB v1 v2 from cnt_swap 1 0 v2 v1,
        show countD v2 v1 = countD v1 v2 from cnt_swap 1 1 v2 v1]
      rw [tetraFormula_swap]
    · have hr : ¬ 0 < v2.length := h3 ▸ hl
      simp [tetrachoric_corr, hl, hr]
  · by_cases hl : 0 < v1.length <;> by_cases hr : 0 < v2.length <;>
      simp [tetrachoric_corr, h3, Ne.symm h3, hl, hr]

/-! ### Order sensitivity of the binary64 ratio

The program computes the ratio as `(AD/B)/C` in float64; with the arguments
swapped it computes `(AD/C)/B`. In exact arithmetic these agree (that is the
content of `tetraFormula_swap`), but binary64 rounds each division, and the
two orders can round to different doubles. We check one such instance with
exact integer arithmetic, at the contingency counts `A = 4`, `B = 5`,
`C = 7`, `D = 1` (so `AD = 4`), which a 17-element binary pair realizes. -/

/-- A 17-element binary pair whose contingency counts are
`A = 4`, `B = 5`, `C = 7`, `D = 1`. -/
def sampleV1 : List ℕ := [0, 0, 0, 0, 0, 0, 0, 0, 0, 1, 1, 1, 1, 1, 1, 1, 1]

/-- The partner vector of `sampleV1`: 4 positions (0,0), 5 positions (0,1),
7 positions (1,0), 1 position (1,1). -/
def sampleV2 : List ℕ := [0, 0, 0, 0, 1, 1, 1, 1, 1, 0, 0, 0, 0, 0, 0, 0, 1]

lemma sample_counts :
    countA sampleV1 sampleV2 = 4 ∧ countB sampleV1 sampleV2 = 5 ∧
    countC sampleV1 sampleV2 = 7 ∧ countD sampleV1 sampleV2 = 1 := by
  decide

/-- Round `n / d` to the nearest integer, ties to even: the integer rounding
that binary64 division performs once numerator and denominator are scaled so
that the quotient's binade places doubles at consecutive integers. -/
def rne (n d : ℕ) : ℕ :=
  if d < 2 * (n % d) then n / d + 1
  else if 2 * (n % d) < d then n / d
  else if n / d % 2 = 0 then n / d else n / d + 1

/-- Binary64 rounding of the two division orders differs at `AD = 4`,
`B = 5`, `C = 7`. Both `4/5` and `4/7` lie in `[1/2, 1)`, where doubles are
the integer multiples of `2^-53`, so `fl(4/5) = rne(4*2^53, 5)/2^53` and
`fl(4/7) = rne(4*2^53, 7)/2^53`; both second quotients lie in
`[2^-4, 2^-3)`, where doubles are the multiples of `2^-56`, so
`fl(fl(4/5)/7) = rne(8*rne(4*2^53, 5), 7)/2^56` and
`fl(fl(4/7)/5) = rne(8*rne(4*2^53, 7), 5)/2^56`. The two significands
differ by one unit in the last place, so the float64 ratio — and with it the
argument handed to `cos` — depends on the argument order, and the exact
symmetry `tetrachoric_corr_symm_ideal` of the idealized model does not
transfer bit for bit to the program. -/
theorem float64_ratio_order_sensitive :
    rne (8 * rne (4 * 2 ^ 53) 5) 7 ≠ rne (8 * rne (4 * 2 ^ 53) 7) 5 := by
  decide

end PyReliMRI
